import Mathlib

/-!
# Verification of the colorgram palette extractor

Shallow embedding of the two source files of the `colorgram` crate
(`src/lib.rs`, `src/main.rs`) and proofs of the specification's claims.

Modelling conventions:
* `u8` / `i32` / `u32` values are `Nat` / `Int` / `Nat` with explicit
  wrapping (`% 256`, `% 2 ^ 32`) exactly where the source narrows or may
  overflow; Rust `/` on `i32` is `Int.tdiv` (truncation toward zero) and
  `>> 1` on a nonnegative `i32` is `Int.fdiv · 2`.
* The per-pixel luminance is computed in `f32` in the source
  (`r * 0.2126 + g * 0.7152 + b * 0.0722` cast to `u8`); the extractor is
  parameterised over an arbitrary luminance map `Y : Rgb → Nat`, so every
  theorem below holds for the real floating-point luminance as well.  A
  concrete exact-arithmetic instance `lumY` is provided for evaluation.
* `f32` proportions are modelled by exact rational arithmetic (`ℚ`).
* Image decoding is an external black box; it is modelled as an
  `Except String (List Rgb)` input.
-/

namespace Colorgram

/-- RGB color: three 8-bit unsigned components (`u8`), modelled as naturals. -/
structure Rgb where
  r : Nat
  g : Nat
  b : Nat
deriving DecidableEq

/-- HSL color in the crate's non-standard 0–255 scaling (`u8` fields). -/
structure Hsl where
  h : Nat
  s : Nat
  l : Nat
deriving DecidableEq

/-- Narrowing cast of a signed 32-bit value to `u8` (Rust `as u8`,
two's-complement truncation): the value modulo 256. -/
def toU8 (x : Int) : Nat := (x % 256).toNat

/-- The `(h, s, l)` triple computed inside `rgb_to_hsl` in signed 32-bit
arithmetic, before the narrowing casts to `u8`.  Mirrors the body of
`rgb_to_hsl` in `src/lib.rs`: `most = r.max(g).max(b)`,
`least = r.min(g).min(b)`, `l = (most + least) >> 1` (arithmetic shift,
i.e. floor division by 2), and the two branches on `most == least`. -/
def hslI32 (r g b : Int) : Int × Int × Int :=
  let most := max (max r g) b
  let least := min (min r g) b
  let l := Int.fdiv (most + least) 2
  if most = least then (0, 0, l)
  else
    let diff := most - least
    let s :=
      if l > 127 then Int.tdiv (diff * 255) (510 - most - least)
      else Int.tdiv (diff * 255) (most + least)
    let h :=
      if most = r then
        Int.tdiv (Int.tdiv ((g - b) * 255) diff + (if g < b then 1530 else 0)) 6
      else if most = g then
        Int.tdiv (Int.tdiv ((b - r) * 255) diff + 510) 6
      else
        Int.tdiv (Int.tdiv ((r - g) * 255) diff + 1020) 6
    (h, s, l)

/-- `rgb_to_hsl` from `src/lib.rs`: the bug-compatible RGB→HSL conversion.
The three i32 intermediates are narrowed to `u8` by `as u8`. -/
def rgb_to_hsl (c : Rgb) : Hsl :=
  let p := hslI32 (c.r : Int) (c.g : Int) (c.b : Int)
  { h := toU8 p.1, s := toU8 p.2.1, l := toU8 p.2.2 }

/-- The reference RGB→HSL algorithm transcribed from the specification text
(§4.1): `most = max(r,g,b)`, `least = min(r,g,b)`, `l = (most+least) >> 1`;
achromatic inputs give `h = 0`, `s = 0`; otherwise `s` and `h` by the
stated formulas with truncating division, and the results narrowed to
8 bits by two's-complement truncation. -/
def spec_rgb_to_hsl (c : Rgb) : Hsl :=
  let r : Int := c.r
  let g : Int := c.g
  let b : Int := c.b
  let most := max r (max g b)
  let least := min r (min g b)
  let l := Int.fdiv (most + least) 2
  if most = least then { h := 0, s := 0, l := toU8 l }
  else
    let diff := most - least
    let s :=
      if l > 127 then Int.tdiv (diff * 255) (510 - most - least)
      else Int.tdiv (diff * 255) (most + least)
    let h :=
      if most = r then
        Int.tdiv (Int.tdiv ((g - b) * 255) diff + (if g < b then 1530 else 0)) 6
      else if most = g then
        Int.tdiv (Int.tdiv ((b - r) * 255) diff + 510) 6
      else
        Int.tdiv (Int.tdiv ((r - g) * 255) diff + 1020) 6
    { h := toU8 h, s := toU8 s, l := toU8 l }

/-- C1: on every RGB input, the implementation `rgb_to_hsl` computes exactly
the specification's reference algorithm (same maxima, shift-based halving,
truncating divisions and two's-complement narrowing to 8 bits). -/
theorem rgb_to_hsl_matches_spec (c : Rgb) : rgb_to_hsl c = spec_rgb_to_hsl c := by
  cases c with
  | mk r g b =>
    simp only [rgb_to_hsl, spec_rgb_to_hsl, hslI32, max_assoc, min_assoc]
    split_ifs <;> rfl

/-- C8: achromatic inputs (`r = g = b`) map to `h = 0`, `s = 0`, `l = r`. -/
theorem rgb_to_hsl_achromatic (v : Nat) (hv : v ≤ 255) :
    rgb_to_hsl ⟨v, v, v⟩ = ⟨0, 0, v⟩ := by
  have hmax : max (max (v : Int) v) v = (v : Int) := by simp
  have hmin : min (min (v : Int) v) v = (v : Int) := by simp
  have hfd : Int.fdiv ((v : Int) + v) 2 = (v : Int) := by
    rw [Int.fdiv_eq_ediv _ (by norm_num)]
    omega
  simp only [rgb_to_hsl, hslI32, hmax, hmin, if_pos rfl, hfd]
  have h256 : ((v : Int)) % 256 = (v : Int) := by
    apply Int.emod_eq_of_lt (by positivity)
    exact_mod_cast Nat.lt_succ_of_le hv
  simp [toU8, h256]

/-- Witness for C8 at `v = 7`. -/
theorem rgb_to_hsl_achromatic_witness :
    rgb_to_hsl ⟨7, 7, 7⟩ = ⟨0, 0, 7⟩ :=
  rgb_to_hsl_achromatic 7 (by decide)

/-- An extracted color: average RGB, its derived HSL, and its prevalence.
The `f32` proportion of the source is modelled as an exact rational. -/
structure Color where
  rgb : Rgb
  hsl : Hsl
  proportion : ℚ
deriving DecidableEq

/-- `Color::new` from `src/lib.rs`: the HSL field is always computed from
the RGB field by `rgb_to_hsl`, never supplied by the caller. -/
def Color.new (rgb : Rgb) (proportion : ℚ) : Color :=
  ⟨rgb, rgb_to_hsl rgb, proportion⟩

/-- Modelled from the spec: the truncated luminance
`y = round_down(r*0.2126 + g*0.7152 + b*0.0722)` narrowed to 8 bits
(§4.2 step 2b).  The source computes this in `f32` and narrows with
`as u8` (a saturating cast); the missing floating-point computation is
modelled in exact integer arithmetic.  It is used only to instantiate the
abstract luminance parameter `Y` on concrete inputs; no theorem depends on
its values. -/
def lumY (p : Rgb) : Nat :=
  min ((p.r * 2126 + p.g * 7152 + p.b * 722) / 10000) 255

/-- One pixel's 12-bit quantization key, as computed in the accumulation
loop of `extract` (`src/lib.rs`): the luminance, the hue and the lightness
are each masked to their top 2 bits (`& 0b1100_0000`) and packed as
`(y_val << 4) | (h << 2) | l`.  `Y` abstracts the floating-point
luminance. -/
def pixelKey (Y : Rgb → Nat) (p : Rgb) : Nat :=
  let hsl := rgb_to_hsl p
  let y_val := Y p &&& 192
  let h := hsl.h &&& 192
  let l := hsl.l &&& 192
  (y_val <<< 4) ||| (h <<< 2) ||| l

/-- The packed quantization key is always below `2 ^ 12 = 4096`. -/
theorem pixelKey_lt (Y : Rgb → Nat) (p : Rgb) : pixelKey Y p < 4096 := by
  have hy : (Y p &&& 192) <<< 4 < 2 ^ 12 := by
    have := Nat.and_le_right (n := Y p) (m := 192)
    rw [Nat.shiftLeft_eq]
    omega
  have hh : ((rgb_to_hsl p).h &&& 192) <<< 2 < 2 ^ 12 := by
    have := Nat.and_le_right (n := (rgb_to_hsl p).h) (m := 192)
    rw [Nat.shiftLeft_eq]
    omega
  have hl : (rgb_to_hsl p).l &&& 192 < 2 ^ 12 := by
    have := Nat.and_le_right (n := (rgb_to_hsl p).l) (m := 192)
    omega
  have := Nat.or_lt_two_pow (Nat.or_lt_two_pow hy hh) hl
  simpa [pixelKey] using this

/-- C2: the quantization key equals the packed mask formula and always lies
below 4096, so the flat `samples` access at `4 * key + 3` stays inside the
`4 * 4096`-element vector. -/
theorem pixelKey_formula_and_lt (Y : Rgb → Nat) (p : Rgb) :
    pixelKey Y p =
      (((Y p &&& 192) <<< 4) ||| (((rgb_to_hsl p).h &&& 192) <<< 2) |||
        ((rgb_to_hsl p).l &&& 192)) ∧
    pixelKey Y p < 4096 ∧ 4 * pixelKey Y p + 3 < 4 * 4096 := by
  have hk := pixelKey_lt Y p
  exact ⟨rfl, hk, by omega⟩

/-- One bucket of the flat `samples` vector: the three channel sums and the
pixel count, each a `u32`. -/
structure Acc where
  sr : Nat
  sg : Nat
  sb : Nat
  cnt : Nat
deriving DecidableEq

/-- Zero-initialized bucket (`vec![0u32; 4 * 4096]`). -/
def Acc.zero : Acc := ⟨0, 0, 0, 0⟩

/-- `2 ^ 32`, the wrap-around modulus of the `u32` accumulators. -/
abbrev U32 : Nat := 2 ^ 32

/-- One iteration of the accumulation loop of `extract`: add the pixel's
channels and bump the count in the bucket at `pixelKey Y p`, with `u32`
(wrapping) additions; other buckets are untouched. -/
def accStep (Y : Rgb → Nat) (samples : Nat → Acc) (p : Rgb) : Nat → Acc :=
  fun k =>
    if k = pixelKey Y p then
      let a := samples k
      ⟨(a.sr + p.r) % U32, (a.sg + p.g) % U32, (a.sb + p.b) % U32, (a.cnt + 1) % U32⟩
    else samples k

/-- The whole accumulation loop of `extract` over the decoded pixels,
starting from the zeroed bucket vector. -/
def accumulate (Y : Rgb → Nat) (pixels : List Rgb) : Nat → Acc :=
  pixels.foldl (accStep Y) (fun _ => Acc.zero)

/-- Ideal (unbounded) contents of bucket `k`: the exact channel sums and
pixel count of the pixels whose key is `k`, with no `u32` wrap-around. -/
def accumulateIdeal (Y : Rgb → Nat) (pixels : List Rgb) (k : Nat) : Acc :=
  let bucket := pixels.filter fun p => pixelKey Y p == k
  ⟨(bucket.map Rgb.r).sum, (bucket.map Rgb.g).sum, (bucket.map Rgb.b).sum, bucket.length⟩

/-- The `u32` accumulation computes the ideal sums reduced modulo `2^32`. -/
theorem accumulate_eq_ideal_mod (Y : Rgb → Nat) (pixels : List Rgb) (k : Nat) :
    accumulate Y pixels k =
      ⟨(accumulateIdeal Y pixels k).sr % U32, (accumulateIdeal Y pixels k).sg % U32,
       (accumulateIdeal Y pixels k).sb % U32, (accumulateIdeal Y pixels k).cnt % U32⟩ := by
  induction pixels using List.reverseRecOn with
  | nil => rfl
  | append_singleton xs x ih =>
    have hstep : accumulate Y (xs ++ [x]) k = accStep Y (accumulate Y xs) x k := by
      simp only [accumulate, List.foldl_concat]
    rw [hstep, accStep]
    by_cases hk : k = pixelKey Y x
    · rw [if_pos hk]
      have hfil : (fun p => pixelKey Y p == k) x = true := by
        simp [hk]
      simp only [accumulateIdeal, List.filter_append, List.filter_cons,
        List.filter_nil, hfil, if_pos, List.map_append, List.sum_append,
        List.length_append, ih]
      simp [Nat.mod_add_mod, accumulateIdeal]
    · rw [if_neg hk]
      have hfil : (fun p => pixelKey Y p == k) x = false := by
        simp [Ne.symm hk]
      simp only [accumulateIdeal, List.filter_append, List.filter_cons,
        List.filter_nil, hfil, List.append_nil, ih]
      simp

/-- Step 3 of `extract`: walk the 4096 buckets in index order and collect
every bucket with `count > 0` as `(count, average RGB)`, the averages being
truncating `u32` divisions narrowed by `as u8`. -/
def usedOf (Y : Rgb → Nat) (pixels : List Rgb) : List (Nat × Rgb) :=
  (List.range 4096).filterMap fun k =>
    let a := accumulate Y pixels k
    if 0 < a.cnt then
      some (a.cnt, ⟨a.sr / a.cnt % 256, a.sg / a.cnt % 256, a.sb / a.cnt % 256⟩)
    else none

/-- Step 4 of `extract`: sort descending by count
(`used.sort_unstable_by(|a, b| b.0.cmp(&a.0))`).  The source's unstable
sort leaves the order of equal counts unspecified; it is modelled by
insertion sort, one admissible order. -/
def sortedUsed (Y : Rgb → Nat) (pixels : List Rgb) : List (Nat × Rgb) :=
  List.insertionSort (fun a b => b.1 ≤ a.1) (usedOf Y pixels)

/-- Steps 5–6 of `extract` on an already-decoded pixel list:
`nmin = number_of_color.min(used.len())`, `sum_counts` the `u32` sum of the
counts of the top `nmin` entries, and the output built from the first
`number_of_color` sorted entries with proportion `count / sum_counts`. -/
def extractPixels (Y : Rgb → Nat) (pixels : List Rgb) (number_of_color : Nat) :
    List Color :=
  let used := sortedUsed Y pixels
  let nmin := min number_of_color used.length
  let sum_counts : Nat := (((used.take nmin).map Prod.fst).sum) % U32
  (used.take number_of_color).map fun cr =>
    Color.new cr.2 ((cr.1 : ℚ) / (sum_counts : ℚ))

/-- `extract` from `src/lib.rs`: decode, then extract; a failure of the
external decoder propagates as the error, and decoding is the only failure
source.  The decoder is modelled by the already-computed `Except` value. -/
def extract (Y : Rgb → Nat) (decoded : Except String (List Rgb))
    (number_of_color : Nat) : Except String (List Color) :=
  decoded.map fun pixels => extractPixels Y pixels number_of_color

/-- `filterMap` with an if-some-none body is `map` after `filter`. -/
theorem filterMap_ite_eq_map_filter {α β : Type} (P : α → Prop) [DecidablePred P]
    (g : α → β) (l : List α) :
    (l.filterMap fun a => if P a then some (g a) else none) =
      (l.filter fun a => decide (P a)).map g := by
  induction l with
  | nil => rfl
  | cons x xs ih =>
    by_cases h : P x <;> simp [List.filterMap_cons, List.filter_cons, h, ih]

/-- Sums of pointwise-added maps split. -/
theorem sum_map_add {α : Type} (f g : α → Nat) (l : List α) :
    (l.map fun a => f a + g a).sum = (l.map f).sum + (l.map g).sum := by
  induction l with
  | nil => rfl
  | cons x xs ih =>
    simp only [List.map_cons, List.sum_cons, ih]
    omega

/-- Summing the indicator of one value over `List.range`. -/
theorem sum_ite_range (c n : Nat) :
    ((List.range n).map fun k => if c = k then 1 else 0).sum
      = if c < n then 1 else 0 := by
  induction n with
  | zero => simp
  | succ n ih =>
    rw [List.range_succ, List.map_append, List.sum_append, ih]
    simp only [List.map_cons, List.map_nil, List.sum_cons, List.sum_nil]
    split_ifs <;> omega

/-- A filtered map-sum is at most the full map-sum (over `ℕ`). -/
theorem sum_map_filter_le {α : Type} (f : α → Nat) (P : α → Bool) (l : List α) :
    ((l.filter P).map f).sum ≤ (l.map f).sum := by
  induction l with
  | nil => exact Nat.le_refl 0
  | cons x xs ih =>
    cases hP : P x <;> simp [List.filter_cons, hP] <;> omega

/-- Dividing each summand by the same rational divides the sum. -/
theorem sum_map_div_rat {α : Type} (f : α → ℚ) (c : ℚ) (l : List α) :
    (l.map fun a => f a / c).sum = (l.map f).sum / c := by
  induction l with
  | nil => simp
  | cons x xs ih => simp [List.map_cons, List.sum_cons, ih, div_add_div_same]

/-- `take n` only ever sees the first `min n length` elements. -/
theorem take_eq_take_min {α : Type} (l : List α) (n : Nat) :
    l.take n = l.take (min n l.length) := by
  have h := List.take_take n l.length l
  rw [List.take_length] at h
  exact h

/-- The 4096 per-key pixel classes partition the pixel list. -/
theorem sum_bucket_lengths (Y : Rgb → Nat) (pixels : List Rgb) :
    ((List.range 4096).map fun k =>
        (pixels.filter fun p => pixelKey Y p == k).length).sum = pixels.length := by
  induction pixels with
  | nil =>
    simp only [List.filter_nil, List.length_nil]
    exact List.sum_eq_zero fun x hx => by
      obtain ⟨k, -, rfl⟩ := List.mem_map.1 hx
      rfl
  | cons p ps ih =>
    have hsplit : (fun k => ((p :: ps).filter fun q => pixelKey Y q == k).length)
        = fun k => (if pixelKey Y p = k then 1 else 0)
            + (ps.filter fun q => pixelKey Y q == k).length := by
      funext k
      by_cases h : pixelKey Y p = k <;> simp [List.filter_cons, h, Nat.add_comm]
    rw [hsplit, sum_map_add, sum_ite_range, ih, if_pos (pixelKey_lt Y p)]
    simp [Nat.add_comm]

/-- `usedOf` as a map over the filtered bucket indices. -/
theorem usedOf_eq_map_filter (Y : Rgb → Nat) (pixels : List Rgb) :
    usedOf Y pixels =
      ((List.range 4096).filter fun k => decide (0 < (accumulate Y pixels k).cnt)).map
        fun k =>
          ((accumulate Y pixels k).cnt,
            (⟨(accumulate Y pixels k).sr / (accumulate Y pixels k).cnt % 256,
              (accumulate Y pixels k).sg / (accumulate Y pixels k).cnt % 256,
              (accumulate Y pixels k).sb / (accumulate Y pixels k).cnt % 256⟩ : Rgb)) :=
  filterMap_ite_eq_map_filter (fun k => 0 < (accumulate Y pixels k).cnt) _ _

/-- Every collected bucket entry has a positive count. -/
theorem mem_usedOf_pos {Y : Rgb → Nat} {pixels : List Rgb} {e : Nat × Rgb}
    (he : e ∈ usedOf Y pixels) : 0 < e.1 := by
  rw [usedOf_eq_map_filter] at he
  simp only [List.mem_map, List.mem_filter] at he
  obtain ⟨k, ⟨-, hk⟩, rfl⟩ := he
  simpa using hk

/-- With fewer than `2^32` pixels the stored count of a bucket is the exact
number of pixels mapped to it. -/
theorem accumulate_cnt_eq (Y : Rgb → Nat) (pixels : List Rgb) (k : Nat)
    (hlen : pixels.length < U32) :
    (accumulate Y pixels k).cnt = (pixels.filter fun p => pixelKey Y p == k).length := by
  rw [accumulate_eq_ideal_mod]
  show (accumulateIdeal Y pixels k).cnt % U32 = _
  simp only [accumulateIdeal]
  exact Nat.mod_eq_of_lt (lt_of_le_of_lt (List.length_filter_le _ _) hlen)

/-- The sorted bucket list is a permutation of the collected one. -/
theorem sortedUsed_perm (Y : Rgb → Nat) (pixels : List Rgb) :
    (sortedUsed Y pixels).Perm (usedOf Y pixels) :=
  List.perm_insertionSort _ _

/-- The sorted bucket list is pairwise non-increasing in the counts. -/
theorem sortedUsed_pairwise (Y : Rgb → Nat) (pixels : List Rgb) :
    List.Pairwise (fun a b : Nat × Rgb => b.1 ≤ a.1) (sortedUsed Y pixels) := by
  haveI : IsTotal (Nat × Rgb) fun a b => b.1 ≤ a.1 := ⟨fun a b => Nat.le_total b.1 a.1⟩
  haveI : IsTrans (Nat × Rgb) fun a b => b.1 ≤ a.1 :=
    ⟨fun _ _ _ hab hbc => Nat.le_trans hbc hab⟩
  exact List.sorted_insertionSort _ _

/-- Selected weight never exceeds the pixel count. -/
theorem sum_take_sortedUsed_le (Y : Rgb → Nat) (pixels : List Rgb) (m : Nat)
    (hlen : pixels.length < U32) :
    (((sortedUsed Y pixels).take m).map Prod.fst).sum ≤ pixels.length := by
  have h1 : (((sortedUsed Y pixels).take m).map Prod.fst).sum
      ≤ ((sortedUsed Y pixels).map Prod.fst).sum :=
    List.Sublist.sum_le_sum ((List.take_sublist _ _).map Prod.fst)
      fun a _ => Nat.zero_le a
  have h2 : ((sortedUsed Y pixels).map Prod.fst).sum
      = ((usedOf Y pixels).map Prod.fst).sum :=
    ((sortedUsed_perm Y pixels).map Prod.fst).sum_eq
  have h3 : ((usedOf Y pixels).map Prod.fst).sum
      = (((List.range 4096).filter fun k =>
          decide (0 < (accumulate Y pixels k).cnt)).map
            fun k => (accumulate Y pixels k).cnt).sum := by
    rw [usedOf_eq_map_filter, List.map_map]
    rfl
  have h4 : (((List.range 4096).filter fun k =>
          decide (0 < (accumulate Y pixels k).cnt)).map
            fun k => (accumulate Y pixels k).cnt).sum
      ≤ ((List.range 4096).map fun k => (accumulate Y pixels k).cnt).sum :=
    sum_map_filter_le _ _ _
  have h5 : ((List.range 4096).map fun k => (accumulate Y pixels k).cnt).sum
      = pixels.length := by
    have heq : (fun k => (accumulate Y pixels k).cnt)
        = fun k => (pixels.filter fun p => pixelKey Y p == k).length :=
      funext fun k => accumulate_cnt_eq Y pixels k hlen
    rw [heq, sum_bucket_lengths]
  omega

/-- C3: the number of returned colors is exactly the minimum of
`number_of_color` and the number of non-empty buckets — never more than
requested, fewer when fewer non-empty buckets exist, and zero when
`number_of_color = 0`. -/
theorem extract_length (Y : Rgb → Nat) (pixels : List Rgb) (n : Nat) :
    (extractPixels Y pixels n).length
      = min n ((List.range 4096).countP fun k =>
          decide (0 < (accumulate Y pixels k).cnt)) := by
  have hlen : (usedOf Y pixels).length
      = (List.range 4096).countP fun k => decide (0 < (accumulate Y pixels k).cnt) := by
    rw [usedOf_eq_map_filter, List.length_map, List.countP_eq_length_filter]
  simp only [extractPixels, List.length_map, List.length_take, sortedUsed,
    List.length_insertionSort, hlen]

/-- C5: the output sequence is ordered by non-increasing bucket count: the
returned colors are the first `number_of_color` entries of the sorted
bucket list, and every pair of adjacent entries of that prefix has a
non-increasing count. -/
theorem extract_sorted_desc (Y : Rgb → Nat) (pixels : List Rgb) (n : Nat) :
    extractPixels Y pixels n
      = ((sortedUsed Y pixels).take n).map (fun cr =>
          Color.new cr.2 ((cr.1 : ℚ) /
            (((((sortedUsed Y pixels).take
                (min n (sortedUsed Y pixels).length)).map Prod.fst).sum % U32 : ℕ) : ℚ))) ∧
    List.Chain' (fun a b : Nat × Rgb => b.1 ≤ a.1) ((sortedUsed Y pixels).take n) := by
  refine ⟨rfl, ?_⟩
  exact (((sortedUsed_pairwise Y pixels).sublist (List.take_sublist _ _))).chain'

/-- Every member of the output has its HSL derived from its RGB. -/
theorem hsl_derived_of_mem (Y : Rgb → Nat) (pixels : List Rgb) (n : Nat)
    (c : Color) (hc : c ∈ extractPixels Y pixels n) : c.hsl = rgb_to_hsl c.rgb := by
  simp only [extractPixels, List.mem_map] at hc
  obtain ⟨cr, -, rfl⟩ := hc
  rfl

/-- C6: every color in the returned list (here: at every valid index `i`)
has its `hsl` field derived from its `rgb` field by `rgb_to_hsl`; it is
never supplied independently. -/
theorem extract_hsl_derived (Y : Rgb → Nat) (pixels : List Rgb) (n i : Nat)
    (hi : i < (extractPixels Y pixels n).length) :
    ((extractPixels Y pixels n).getD i (Color.new ⟨0, 0, 0⟩ 0)).hsl
      = rgb_to_hsl ((extractPixels Y pixels n).getD i (Color.new ⟨0, 0, 0⟩ 0)).rgb := by
  refine hsl_derived_of_mem Y pixels n _ ?_
  rw [List.getD_eq_getElem _ _ hi]
  exact List.getElem_mem hi

/-- A non-empty selected prefix carries positive total weight. -/
theorem sum_take_pos (Y : Rgb → Nat) (pixels : List Rgb) (m : Nat)
    (hne : (sortedUsed Y pixels).take m ≠ []) :
    0 < (((sortedUsed Y pixels).take m).map Prod.fst).sum := by
  refine List.sum_pos _ ?_ ?_
  · intro x hx
    obtain ⟨e, he, rfl⟩ := List.mem_map.1 hx
    exact mem_usedOf_pos
      ((sortedUsed_perm Y pixels).mem_iff.1 (List.mem_of_mem_take he))
  · rw [Ne, List.map_eq_nil_iff]
    exact hne

/-- C4: each returned proportion is its own bucket count divided by the
total weight of only the selected top buckets, and the proportions of a
non-empty output sum to exactly 1 (in the exact-rational model of the
`f32` division). -/
theorem extract_proportions (Y : Rgb → Nat) (pixels : List Rgb) (n : Nat)
    (hlen : pixels.length < U32) :
    extractPixels Y pixels n
      = ((sortedUsed Y pixels).take n).map (fun cr =>
          Color.new cr.2 ((cr.1 : ℚ) /
            (((((sortedUsed Y pixels).take (min n (sortedUsed Y pixels).length)).map
                Prod.fst).sum : ℕ) : ℚ))) ∧
    (extractPixels Y pixels n ≠ [] →
      ((extractPixels Y pixels n).map Color.proportion).sum = 1) := by
  set u := sortedUsed Y pixels with hu
  set m := min n u.length with hm
  set S : Nat := ((u.take m).map Prod.fst).sum with hS
  have hSle : S ≤ pixels.length := sum_take_sortedUsed_le Y pixels m hlen
  have hmod : S % U32 = S := Nat.mod_eq_of_lt (lt_of_le_of_lt hSle hlen)
  have h1 : extractPixels Y pixels n
      = (u.take n).map fun cr => Color.new cr.2 ((cr.1 : ℚ) / (S : ℚ)) := by
    simp only [extractPixels, ← hu, ← hm, ← hS, hmod]
  refine ⟨by rw [h1], fun hne => ?_⟩
  rw [h1] at hne ⊢
  have htake : u.take n = u.take m := by
    rw [hm]
    exact take_eq_take_min u n
  rw [htake] at hne ⊢
  have hSpos : 0 < S := by
    rw [hS]
    refine sum_take_pos Y pixels m ?_
    intro h0
    rw [← hu] at h0
    rw [h0] at hne
    exact hne rfl
  have hmap : (((u.take m).map fun cr =>
        Color.new cr.2 ((cr.1 : ℚ) / (S : ℚ))).map Color.proportion)
      = (u.take m).map fun cr => ((cr.1 : ℚ) / (S : ℚ)) := by
    rw [List.map_map]
    rfl
  rw [hmap, sum_map_div_rat (fun cr : Nat × Rgb => ((cr.1 : ℕ) : ℚ)) ((S : ℕ) : ℚ)]
  have hcast : ((u.take m).map fun cr : Nat × Rgb => ((cr.1 : ℕ) : ℚ)).sum
      = ((S : ℕ) : ℚ) := by
    rw [hS, Nat.cast_list_sum, List.map_map]
    rfl
  rw [hcast]
  exact div_self (Nat.cast_ne_zero.2 (Nat.pos_iff_ne_zero.1 hSpos))

/-- C7: `extract` fails exactly when decoding fails, and the algorithm's
divisions are structurally protected: every collected bucket entry has a
positive count (the averaging divisor), and the selected total weight (the
proportion divisor) is positive whenever some bucket is non-empty and at
least one color is requested. -/
theorem extract_error_iff (Y : Rgb → Nat) (n : Nat) (s : String)
    (pixels : List Rgb) (hlen : pixels.length < U32) :
    extract Y (Except.error s) n = Except.error s ∧
    extract Y (Except.ok pixels) n = Except.ok (extractPixels Y pixels n) ∧
    (∀ e ∈ usedOf Y pixels, 0 < e.1) ∧
    (usedOf Y pixels ≠ [] → 0 < n →
      0 < ((((sortedUsed Y pixels).take (min n (sortedUsed Y pixels).length)).map
            Prod.fst).sum) % U32) := by
  refine ⟨rfl, rfl, fun e he => mem_usedOf_pos he, fun hne hn => ?_⟩
  have hune : sortedUsed Y pixels ≠ [] := by
    intro h0
    apply hne
    have hperm := sortedUsed_perm Y pixels
    rw [h0] at hperm
    exact (hperm.nil_eq).symm
  have htakene : (sortedUsed Y pixels).take (min n (sortedUsed Y pixels).length) ≠ [] := by
    rw [Ne, List.take_eq_nil_iff]
    intro hor
    rcases hor with hmin | hnil
    · have hpos : 0 < (sortedUsed Y pixels).length := List.length_pos.2 hune
      omega
    · exact hune hnil
  have hpos := sum_take_pos Y pixels (min n (sortedUsed Y pixels).length) htakene
  have hle := sum_take_sortedUsed_le Y pixels (min n (sortedUsed Y pixels).length) hlen
  rw [Nat.mod_eq_of_lt (lt_of_le_of_lt hle hlen)]
  exact hpos

/-- Truncating division bounded above through a multiple of the divisor. -/
theorem tdiv_le_of_le_mul (a b c : Int) (ha : 0 ≤ a) (hb : 0 < b) (h : a ≤ c * b) :
    a.tdiv b ≤ c := by
  rw [Int.tdiv_eq_ediv ha hb.le]
  calc a / b ≤ c * b / b := Int.ediv_le_ediv hb h
    _ = c := Int.mul_ediv_cancel c hb.ne'

/-- Truncating division preserves nonpositivity for a nonnegative divisor. -/
theorem tdiv_nonpos_of_nonpos (a b : Int) (ha : a ≤ 0) (hb : 0 ≤ b) :
    a.tdiv b ≤ 0 := by
  have h2 : 0 ≤ (-a).tdiv b := Int.tdiv_nonneg (by omega) hb
  rw [Int.neg_tdiv] at h2
  omega

/-- A truncating quotient of values in `[0, 255·d]` by `d > 0` lies in
`[0, 255]`. -/
theorem tdiv_range_nonneg (a d : Int) (hd : 0 < d) (h0 : 0 ≤ a) (h1 : a ≤ 255 * d) :
    0 ≤ a.tdiv d ∧ a.tdiv d ≤ 255 :=
  ⟨Int.tdiv_nonneg h0 hd.le, tdiv_le_of_le_mul a d 255 h0 hd (by omega)⟩

/-- A truncating quotient of values in `[-255·d, 255·d]` by `d > 0` lies in
`[-255, 255]`. -/
theorem tdiv_range_sym (x d : Int) (hd : 0 < d) (hlo : -(255 * d) ≤ x)
    (hhi : x ≤ 255 * d) : -255 ≤ x.tdiv d ∧ x.tdiv d ≤ 255 := by
  rcases le_or_lt 0 x with hx | hx
  · have h := tdiv_range_nonneg x d hd hx hhi
    exact ⟨by omega, h.2⟩
  · have h2 : x.tdiv d ≤ 0 := tdiv_nonpos_of_nonpos x d hx.le hd.le
    have h3 : (-x).tdiv d ≤ 255 :=
      tdiv_le_of_le_mul (-x) d 255 (by omega) hd (by omega)
    rw [Int.neg_tdiv] at h3
    exact ⟨by omega, by omega⟩

/-- The saturation branch of `rgb_to_hsl` stays in `[0, 255]`. -/
theorem s_branch_range (M L l : Int) (hd : 0 < M - L) (h255 : M ≤ 255)
    (h0 : 0 ≤ L) :
    0 ≤ (if 127 < l then ((M - L) * 255).tdiv (510 - M - L)
        else ((M - L) * 255).tdiv (M + L)) ∧
    (if 127 < l then ((M - L) * 255).tdiv (510 - M - L)
        else ((M - L) * 255).tdiv (M + L)) ≤ 255 := by
  by_cases h : 127 < l
  · rw [if_pos h]
    exact tdiv_range_nonneg _ _ (by omega) (by omega) (by omega)
  · rw [if_neg h]
    exact tdiv_range_nonneg _ _ (by omega) (by omega) (by omega)

/-- The hue branch of `rgb_to_hsl` stays in `[0, 255]`. -/
theorem h_branch_range (r g b M L : Int) (hd : 0 < M - L)
    (hMr : r ≤ M) (hMg : g ≤ M) (hMb : b ≤ M)
    (hLr : L ≤ r) (hLg : L ≤ g) (hLb : L ≤ b) :
    0 ≤ (if M = r then
          (((g - b) * 255).tdiv (M - L) + if g < b then (1530 : Int) else 0).tdiv 6
        else if M = g then (((b - r) * 255).tdiv (M - L) + 510).tdiv 6
        else (((r - g) * 255).tdiv (M - L) + 1020).tdiv 6) ∧
    (if M = r then
          (((g - b) * 255).tdiv (M - L) + if g < b then (1530 : Int) else 0).tdiv 6
        else if M = g then (((b - r) * 255).tdiv (M - L) + 510).tdiv 6
        else (((r - g) * 255).tdiv (M - L) + 1020).tdiv 6) ≤ 255 := by
  by_cases hmr : M = r
  · rw [if_pos hmr]
    by_cases hgb : g < b
    · rw [if_pos hgb]
      have hq0 : ((g - b) * 255).tdiv (M - L) ≤ 0 :=
        tdiv_nonpos_of_nonpos _ _ (by omega) (by omega)
      have hq1 := tdiv_range_sym ((g - b) * 255) (M - L) hd (by omega) (by omega)
      exact tdiv_range_nonneg _ _ (by omega) (by omega) (by omega)
    · rw [if_neg hgb]
      have hq := tdiv_range_nonneg ((g - b) * 255) (M - L) hd (by omega) (by omega)
      exact tdiv_range_nonneg _ _ (by omega) (by omega) (by omega)
  · rw [if_neg hmr]
    by_cases hmg : M = g
    · rw [if_pos hmg]
      have hq := tdiv_range_sym ((b - r) * 255) (M - L) hd (by omega) (by omega)
      exact tdiv_range_nonneg _ _ (by omega) (by omega) (by omega)
    · rw [if_neg hmg]
      have hq := tdiv_range_sym ((r - g) * 255) (M - L) hd (by omega) (by omega)
      exact tdiv_range_nonneg _ _ (by omega) (by omega) (by omega)

/-- All three signed 32-bit intermediates of `hslI32` lie in `[0, 255]`
when the three inputs do. -/
theorem hslI32_range (r g b : Int) (hr0 : 0 ≤ r) (hr1 : r ≤ 255) (hg0 : 0 ≤ g)
    (hg1 : g ≤ 255) (hb0 : 0 ≤ b) (hb1 : b ≤ 255) :
    0 ≤ (hslI32 r g b).1 ∧ (hslI32 r g b).1 ≤ 255 ∧
    0 ≤ (hslI32 r g b).2.1 ∧ (hslI32 r g b).2.1 ≤ 255 ∧
    0 ≤ (hslI32 r g b).2.2 ∧ (hslI32 r g b).2.2 ≤ 255 := by
  simp only [hslI32]
  set M := max (max r g) b with hM
  set L := min (min r g) b with hL
  set l := Int.fdiv (M + L) 2 with hldef
  have hMr : r ≤ M := le_trans (le_max_left r g) (le_max_left _ b)
  have hMg : g ≤ M := le_trans (le_max_right r g) (le_max_left _ b)
  have hMb : b ≤ M := le_max_right _ b
  have hLr : L ≤ r := le_trans (min_le_left _ b) (min_le_left r g)
  have hLg : L ≤ g := le_trans (min_le_left _ b) (min_le_right r g)
  have hLb : L ≤ b := min_le_right _ b
  have hM255 : M ≤ 255 := max_le (max_le hr1 hg1) hb1
  have hL0 : 0 ≤ L := le_min (le_min hr0 hg0) hb0
  have hlb : 2 * l ≤ M + L ∧ M + L ≤ 2 * l + 1 := by
    rw [hldef, Int.fdiv_eq_ediv _ (by norm_num)]
    have h1 := Int.ediv_add_emod (M + L) 2
    have h2 := Int.emod_nonneg (M + L) (b := 2) (by norm_num)
    have h3 := Int.emod_lt_of_pos (M + L) (b := 2) (by norm_num)
    omega
  by_cases heq : M = L
  · simp only [if_pos heq]
    omega
  · simp only [if_neg heq]
    have hd : 0 < M - L := by
      have hLM : L ≤ M := le_trans hLr hMr
      omega
    have hS := s_branch_range M L l hd hM255 hL0
    have hH := h_branch_range r g b M L hd hMr hMg hMb hLr hLg hLb
    exact ⟨hH.1, hH.2, hS.1, hS.2, by omega, by omega⟩

/-- C9: for 8-bit inputs the signed 32-bit intermediates `h`, `s`, `l` of
`rgb_to_hsl` already lie in `[0, 255]`, so the wrapping narrowing to `u8`
never changes a value: the emitted fields are exactly the intermediates
(wrapping and saturating narrowing coincide on this range). -/
theorem hsl_intermediates_in_range (r g b : Nat) (hr : r ≤ 255) (hg : g ≤ 255)
    (hb : b ≤ 255) :
    0 ≤ (hslI32 r g b).1 ∧ (hslI32 r g b).1 ≤ 255 ∧
    0 ≤ (hslI32 r g b).2.1 ∧ (hslI32 r g b).2.1 ≤ 255 ∧
    0 ≤ (hslI32 r g b).2.2 ∧ (hslI32 r g b).2.2 ≤ 255 ∧
    rgb_to_hsl ⟨r, g, b⟩
      = ⟨(hslI32 r g b).1.toNat, (hslI32 r g b).2.1.toNat,
         (hslI32 r g b).2.2.toNat⟩ := by
  have h := hslI32_range r g b (by positivity) (by exact_mod_cast hr)
    (by positivity) (by exact_mod_cast hg) (by positivity) (by exact_mod_cast hb)
  obtain ⟨h1, h2, h3, h4, h5, h6⟩ := h
  refine ⟨h1, h2, h3, h4, h5, h6, ?_⟩
  simp only [rgb_to_hsl, toU8]
  rw [Int.emod_eq_of_lt h1 (by omega), Int.emod_eq_of_lt h3 (by omega),
    Int.emod_eq_of_lt h5 (by omega)]

/-- C10: with at most 16,843,009 pixels of 8-bit components, every field of
every bucket accumulator stays within `u32` range, so the wrapping
accumulation computes the ideal sums and no overflow occurs; one bucket
filled by 16,843,010 pixels of channel value 255 exceeds `u32` in a
channel sum, a bound the spec does not state. -/
theorem accumulator_no_overflow (Y : Rgb → Nat) (pixels : List Rgb) (k : Nat)
    (hlen : pixels.length ≤ 16843009)
    (hcomp : ∀ p ∈ pixels, p.r ≤ 255 ∧ p.g ≤ 255 ∧ p.b ≤ 255) :
    (accumulateIdeal Y pixels k).sr < U32 ∧
    (accumulateIdeal Y pixels k).sg < U32 ∧
    (accumulateIdeal Y pixels k).sb < U32 ∧
    (accumulateIdeal Y pixels k).cnt < U32 ∧
    accumulate Y pixels k = accumulateIdeal Y pixels k ∧
    16843009 < (accumulateIdeal Y (List.replicate 16843010 ⟨255, 255, 255⟩)
        (pixelKey Y ⟨255, 255, 255⟩)).cnt ∧
    ¬ (accumulateIdeal Y (List.replicate 16843010 ⟨255, 255, 255⟩)
        (pixelKey Y ⟨255, 255, 255⟩)).sr < U32 := by
  have hU : U32 = 4294967296 := by norm_num
  have hfield : ∀ f : Rgb → Nat, (∀ p ∈ pixels, f p ≤ 255) →
      ((pixels.filter fun p => pixelKey Y p == k).map f).sum < U32 := by
    intro f hf
    have hlen2 : ((pixels.filter fun p => pixelKey Y p == k).map f).length
        ≤ pixels.length := by
      rw [List.length_map]
      exact List.length_filter_le _ _
    have hb : ∀ x ∈ (pixels.filter fun p => pixelKey Y p == k).map f, x ≤ 255 := by
      intro x hx
      obtain ⟨p, hp, rfl⟩ := List.mem_map.1 hx
      exact hf p (List.mem_of_mem_filter hp)
    have hsum := List.sum_le_card_nsmul _ 255 hb
    rw [smul_eq_mul] at hsum
    have hmul : ((pixels.filter fun p => pixelKey Y p == k).map f).length * 255
        ≤ 16843009 * 255 := Nat.mul_le_mul_right 255 (le_trans hlen2 hlen)
    omega
  have hsr : (accumulateIdeal Y pixels k).sr
      = ((pixels.filter fun p => pixelKey Y p == k).map Rgb.r).sum := rfl
  have hsg : (accumulateIdeal Y pixels k).sg
      = ((pixels.filter fun p => pixelKey Y p == k).map Rgb.g).sum := rfl
  have hsb : (accumulateIdeal Y pixels k).sb
      = ((pixels.filter fun p => pixelKey Y p == k).map Rgb.b).sum := rfl
  have hcnt : (accumulateIdeal Y pixels k).cnt
      = (pixels.filter fun p => pixelKey Y p == k).length := rfl
  have h1 : (accumulateIdeal Y pixels k).sr < U32 := by
    rw [hsr]
    exact hfield Rgb.r fun p hp => (hcomp p hp).1
  have h2 : (accumulateIdeal Y pixels k).sg < U32 := by
    rw [hsg]
    exact hfield Rgb.g fun p hp => (hcomp p hp).2.1
  have h3 : (accumulateIdeal Y pixels k).sb < U32 := by
    rw [hsb]
    exact hfield Rgb.b fun p hp => (hcomp p hp).2.2
  have h4 : (accumulateIdeal Y pixels k).cnt < U32 := by
    rw [hcnt]
    have := List.length_filter_le (fun p => pixelKey Y p == k) pixels
    omega
  have h5 : accumulate Y pixels k = accumulateIdeal Y pixels k := by
    rw [accumulate_eq_ideal_mod, Nat.mod_eq_of_lt h1, Nat.mod_eq_of_lt h2,
      Nat.mod_eq_of_lt h3, Nat.mod_eq_of_lt h4]
  have hrep : (List.replicate 16843010 (⟨255, 255, 255⟩ : Rgb)).filter
      (fun p => pixelKey Y p == pixelKey Y ⟨255, 255, 255⟩)
      = List.replicate 16843010 (⟨255, 255, 255⟩ : Rgb) := by
    rw [List.filter_replicate]
    simp only [beq_self_eq_true]
    rfl
  have e1 : (accumulateIdeal Y (List.replicate 16843010 ⟨255, 255, 255⟩)
      (pixelKey Y ⟨255, 255, 255⟩)).cnt
      = ((List.replicate 16843010 (⟨255, 255, 255⟩ : Rgb)).filter
          (fun p => pixelKey Y p == pixelKey Y ⟨255, 255, 255⟩)).length := rfl
  have e2 : (accumulateIdeal Y (List.replicate 16843010 ⟨255, 255, 255⟩)
      (pixelKey Y ⟨255, 255, 255⟩)).sr
      = (((List.replicate 16843010 (⟨255, 255, 255⟩ : Rgb)).filter
          (fun p => pixelKey Y p == pixelKey Y ⟨255, 255, 255⟩)).map Rgb.r).sum := rfl
  refine ⟨h1, h2, h3, h4, h5, ?_, ?_⟩
  · rw [e1, hrep, List.length_replicate]
    norm_num
  · rw [e2, hrep, List.map_replicate, List.sum_replicate, smul_eq_mul]
    norm_num

/-- Witness for C10 on a one-pixel image at bucket 0. -/
theorem accumulator_no_overflow_witness :
    (accumulateIdeal lumY [⟨255, 0, 10⟩] 0).sr < U32 ∧
    (accumulateIdeal lumY [⟨255, 0, 10⟩] 0).sg < U32 ∧
    (accumulateIdeal lumY [⟨255, 0, 10⟩] 0).sb < U32 ∧
    (accumulateIdeal lumY [⟨255, 0, 10⟩] 0).cnt < U32 ∧
    accumulate lumY [⟨255, 0, 10⟩] 0 = accumulateIdeal lumY [⟨255, 0, 10⟩] 0 ∧
    16843009 < (accumulateIdeal lumY (List.replicate 16843010 ⟨255, 255, 255⟩)
        (pixelKey lumY ⟨255, 255, 255⟩)).cnt ∧
    ¬ (accumulateIdeal lumY (List.replicate 16843010 ⟨255, 255, 255⟩)
        (pixelKey lumY ⟨255, 255, 255⟩)).sr < U32 :=
  accumulator_no_overflow lumY [⟨255, 0, 10⟩] 0 (by decide) (by decide)

/-- Witness for C9 at the reference input `RGB(100, 20, 30)`. -/
theorem hsl_intermediates_in_range_witness :
    0 ≤ (hslI32 100 20 30).1 ∧ (hslI32 100 20 30).1 ≤ 255 ∧
    0 ≤ (hslI32 100 20 30).2.1 ∧ (hslI32 100 20 30).2.1 ≤ 255 ∧
    0 ≤ (hslI32 100 20 30).2.2 ∧ (hslI32 100 20 30).2.2 ≤ 255 ∧
    rgb_to_hsl ⟨100, 20, 30⟩
      = ⟨(hslI32 100 20 30).1.toNat, (hslI32 100 20 30).2.1.toNat,
         (hslI32 100 20 30).2.2.toNat⟩ :=
  hsl_intermediates_in_range 100 20 30 (by decide) (by decide) (by decide)

/-- Witness for C4 on a two-pixel single-color image with one requested
color. -/
theorem extract_proportions_witness :
    extractPixels lumY [⟨1, 2, 3⟩, ⟨1, 2, 3⟩] 1
      = ((sortedUsed lumY [⟨1, 2, 3⟩, ⟨1, 2, 3⟩]).take 1).map (fun cr =>
          Color.new cr.2 ((cr.1 : ℚ) /
            (((((sortedUsed lumY [⟨1, 2, 3⟩, ⟨1, 2, 3⟩]).take
                (min 1 (sortedUsed lumY [⟨1, 2, 3⟩, ⟨1, 2, 3⟩]).length)).map
                Prod.fst).sum : ℕ) : ℚ))) ∧
    (extractPixels lumY [⟨1, 2, 3⟩, ⟨1, 2, 3⟩] 1 ≠ [] →
      ((extractPixels lumY [⟨1, 2, 3⟩, ⟨1, 2, 3⟩] 1).map Color.proportion).sum = 1) :=
  extract_proportions lumY [⟨1, 2, 3⟩, ⟨1, 2, 3⟩] 1 (by decide)

set_option maxRecDepth 100000 in
/-- Witness for C6 at index 0 of a one-pixel extraction. -/
theorem extract_hsl_derived_witness :
    0 < (extractPixels lumY [⟨0, 0, 0⟩] 1).length ∧
    ((extractPixels lumY [⟨0, 0, 0⟩] 1).getD 0 (Color.new ⟨0, 0, 0⟩ 0)).hsl
      = rgb_to_hsl ((extractPixels lumY [⟨0, 0, 0⟩] 1).getD 0
          (Color.new ⟨0, 0, 0⟩ 0)).rgb :=
  ⟨by decide, extract_hsl_derived lumY [⟨0, 0, 0⟩] 1 0 (by decide)⟩

/-- Witness for C7 on a one-pixel decode success and a failing decode. -/
theorem extract_error_iff_witness :
    extract lumY (Except.error "bad image") 1 = Except.error "bad image" ∧
    extract lumY (Except.ok [⟨1, 2, 3⟩]) 1
      = Except.ok (extractPixels lumY [⟨1, 2, 3⟩] 1) ∧
    (∀ e ∈ usedOf lumY [⟨1, 2, 3⟩], 0 < e.1) ∧
    (usedOf lumY [⟨1, 2, 3⟩] ≠ [] → 0 < 1 →
      0 < ((((sortedUsed lumY [⟨1, 2, 3⟩]).take
            (min 1 (sortedUsed lumY [⟨1, 2, 3⟩]).length)).map
            Prod.fst).sum) % U32) :=
  extract_error_iff lumY 1 "bad image" [⟨1, 2, 3⟩] (by decide)

end Colorgram
